import Mathlib

/-!
# Verification of the wbmath fraction and vector packages

This file gives a shallow embedding, in Lean 4, of the Go packages
`wbmath` (numeric helpers), `fraction` (a sign-magnitude rational type)
and `vector` (a slice-backed numeric vector), together with proofs and
refutations of the specified properties.

Machine integers (`int`) are modelled as `Int`; the spec declares
overflow out of scope, so no wrap-around is modelled.  Go's truncated
integer division and remainder are `Int.tdiv` and `Int.tmod`.
`float64` results of `Evaluate` are modelled exactly over `ℚ`.
In-place slice mutation is modelled by explicit state passing.
-/

namespace wbmath

/-- Embeds Go `wbmath.Abs` (specialised to `int`):
`if value < 0 { return -value }; return value`. -/
def Abs (value : Int) : Int :=
  if value < 0 then -value else value

/-- The `for b != 0 { a, b = b, a%b }` loop of Go `wbmath.Gcd`,
returning the final `a`.  Go `%` is truncated remainder (`Int.tmod`). -/
def gcdLoop (a b : Int) : Int :=
  if h : b = 0 then a else gcdLoop b (a.tmod b)
termination_by b.natAbs
decreasing_by
  have habs : (a.tmod b).natAbs = a.natAbs % b.natAbs := by
    cases a <;> cases b <;>
      simp only [Int.tmod, Int.natAbs_ofNat, Int.natAbs_neg] <;>
      norm_cast
  have hb : 0 < b.natAbs := Int.natAbs_pos.mpr h
  simpa [habs] using Nat.mod_lt _ hb

/-- Embeds Go `wbmath.Gcd`: the zero guard `if a == 0 || b == 0 { return a + b }`
followed by the Euclidean loop. -/
def Gcd (a b : Int) : Int :=
  if a = 0 ∨ b = 0 then a + b else gcdLoop a b

/-- The square-and-multiply loop of Go `wbmath.PowInt`; the loop state is
`(base, exponent, result)`.  `exponent & 1` and `exponent >> 1` are written
`% 2` and `/ 2`. -/
def powIntLoop (base : Int) (exponent : Nat) (result : Int) : Int :=
  if h : exponent = 0 then result
  else
    let result := if exponent % 2 ≠ 0 then result * base else result
    let exponent2 := exponent / 2
    let base := if exponent2 ≠ 0 then base * base else base
    powIntLoop base exponent2 result
termination_by exponent
decreasing_by exact Nat.div_lt_self (Nat.pos_of_ne_zero h) one_lt_two

/-- Embeds Go `wbmath.PowInt`: binary exponentiation with accumulator `1`. -/
def PowInt (base : Int) (exponent : Nat) : Int :=
  powIntLoop base exponent 1

end wbmath

namespace fraction

/-- Embeds the Go `fraction.Fraction` struct:
sign-magnitude representation with fields `numerator`, `denominator`
(Go `int`, modelled as `Int`) and `isNegative` (Go `bool`). -/
structure Fraction where
  numerator : Int
  denominator : Int
  isNegative : Bool
deriving DecidableEq

/-- Embeds Go `fraction.New`: rejects a zero denominator with the error
string used by the source, otherwise stores absolute magnitudes and
`isNegative := numerator*denominator < 0`. -/
def New (numerator denominator : Int) : Except String Fraction :=
  if denominator = 0 then Except.error "error: integer divide by zero"
  else Except.ok
    { numerator := wbmath.Abs numerator
      denominator := wbmath.Abs denominator
      isNegative := decide (numerator * denominator < 0) }

/-- Embeds the `int` branch of Go `fraction.NewFromNumber`. -/
def NewFromNumberInt (num : Int) : Fraction :=
  { numerator := num, denominator := 1, isNegative := false }

/-- Embeds Go `strings.IndexByte`: index of the first occurrence of `c`,
or `-1` when absent. -/
def indexByte (s : List Char) (c : Char) : Int :=
  match s.findIdx? (fun x => x == c) with
  | some i => (i : Int)
  | none => -1

/-- Embeds the `float64` branch of Go `fraction.NewFromNumber`.  The
argument `s` is the value's minimal decimal text as produced by
`strconv.FormatFloat(float64(num), 'f', -1, 64)`; the float-to-text
conversion itself is not modelled, the branch is analysed as a function
of that text.  The numerator is the literal `3` exactly as in the
source. -/
def NewFromNumberFloat (s : List Char) : Fraction :=
  let i := indexByte s '.'
  let decimalPlaces : Nat := if 1 ≤ i then ((s.length : Int) - i - 1).toNat else 0
  { numerator := 3
    denominator := wbmath.PowInt 10 decimalPlaces
    isNegative := false }

/-- Embeds Go `fraction.Fraction.Simplify`: divides both magnitude fields
by `wbmath.Gcd` of the fields when that gcd is nonzero.  Go `/` is
truncated division (`Int.tdiv`). -/
def Simplify (f : Fraction) : Fraction :=
  let gcd := wbmath.Gcd f.numerator f.denominator
  if gcd ≠ 0 then
    { f with
      numerator := f.numerator.tdiv gcd
      denominator := f.denominator.tdiv gcd }
  else f

/-- Embeds Go `fraction.Fraction.Evaluate`.  The Go method divides in
`float64`; the division is modelled exactly over `ℚ`, keeping the
source's branch structure: `-numerator/denominator` when the sign is
negative and the numerator nonzero, else `numerator/denominator`. -/
def Evaluate (f : Fraction) : ℚ :=
  if f.isNegative ∧ f.numerator ≠ 0 then
    -((f.numerator : ℚ) / (f.denominator : ℚ))
  else
    (f.numerator : ℚ) / (f.denominator : ℚ)

/-- Embeds Go `fraction.Fraction.String`: simplifies, splits off a whole
part when `numerator >= denominator` (Go truncated `/` and `%`), renders
with `Sprintf("%d", ...)` pieces and prefixes `-` when negative. -/
def StringGo (f : Fraction) : String :=
  let fraction := Simplify f
  let numerator := fraction.numerator
  let denominator := fraction.denominator
  let wholeNumber : Int := 0
  let (wholeNumber, numerator) :=
    if numerator ≥ denominator then
      (numerator.tdiv denominator, numerator.tmod denominator)
    else (wholeNumber, numerator)
  let result :=
    if numerator = 0 then toString wholeNumber
    else if wholeNumber = 0 then toString numerator ++ "/" ++ toString denominator
    else toString wholeNumber ++ " " ++ toString numerator ++ "/" ++ toString denominator
  if fraction.isNegative then "-" ++ result else result

/-- Embeds Go `fraction.Fraction.Multiply`: multiplies magnitudes and
combines signs with the source's if/else-if chain. -/
def Multiply (f other : Fraction) : Fraction :=
  let numerator := f.numerator * other.numerator
  let denominator := f.denominator * other.denominator
  let isNegative :=
    if f.isNegative && other.isNegative then false
    else if f.isNegative || other.isNegative then true
    else false
  { numerator := numerator, denominator := denominator, isNegative := isNegative }

/-- Embeds Go `fraction.Fraction.Add`: cross-multiplies with explicit
`±1` signs, stores the absolute combined numerator and recomputes the
sign from `numerator*denominator < 0`. -/
def Add (f other : Fraction) : Fraction :=
  let signSelf : Int := if f.isNegative then -1 else 1
  let signOther : Int := if other.isNegative then -1 else 1
  let numerator := signSelf * f.numerator * other.denominator +
    signOther * other.numerator * f.denominator
  let denominator := f.denominator * other.denominator
  { numerator := wbmath.Abs numerator
    denominator := denominator
    isNegative := decide (numerator * denominator < 0) }

/-- Embeds Go `fraction.Fraction.Subtract`: as `Add` with the second
cross product subtracted. -/
def Subtract (f other : Fraction) : Fraction :=
  let signSelf : Int := if f.isNegative then -1 else 1
  let signOther : Int := if other.isNegative then -1 else 1
  let numerator := signSelf * f.numerator * other.denominator -
    signOther * other.numerator * f.denominator
  let denominator := f.denominator * other.denominator
  { numerator := wbmath.Abs numerator
    denominator := denominator
    isNegative := decide (numerator * denominator < 0) }

/-- Embeds Go `fraction.Fraction.Divide`: cross-multiplies without any
zero check on `other`'s numerator; the sign is the XOR of the operand
signs. -/
def Divide (f other : Fraction) : Fraction :=
  let isNegative :=
    if (f.isNegative && !other.isNegative) || (!f.isNegative && other.isNegative) then true
    else false
  { numerator := f.numerator * other.denominator
    denominator := f.denominator * other.numerator
    isNegative := isNegative }

/-- Embeds Go `fraction.Fraction.Pow`: raises both magnitudes with
`wbmath.PowInt`; the sign survives only for odd exponents. -/
def Pow (f : Fraction) (exponent : Nat) : Fraction :=
  let numerator := wbmath.PowInt f.numerator exponent
  let denominator := wbmath.PowInt f.denominator exponent
  let isNegative := if f.isNegative && (exponent % 2 != 0) then true else false
  { numerator := numerator, denominator := denominator, isNegative := isNegative }

/-- The root-error kinds named by the spec (§7). -/
inductive RootError where
  | EvenRootOfNegative
  | NonIntegerRoot
deriving DecidableEq

/-- Modelled from the spec: the integrality helper
`wbmath.IsNthRootInt` (§4.6) applied to the non-negative magnitudes of a
fraction; the floating-point round-trip heuristic is modelled as the
exact integer-root test. -/
def IsNthRootInt (value : Int) (degree : Nat) : Bool :=
  (List.range (value.toNat + 2)).any (fun r : Nat => decide ((r : Int) ^ degree = value))

/-- Modelled from the spec: the rounded integer `degree`-th root used by
`nth_root` (§4.5); for values passing the integrality test it is the
exact root. -/
def IntNthRoot (value : Int) (degree : Nat) : Int :=
  match (List.range (value.toNat + 2)).find? (fun r : Nat => decide ((r : Int) ^ degree = value)) with
  | some r => (r : Int)
  | none => 0

/-- Modelled from the spec: `nth_root(degree)` (§4.5).  The
error-returning `NthRoot` is exercised by the repository's fraction
tests but its implementation is not among the sources; per the spec it
fails with `EvenRootOfNegative` when the sign is negative and the degree
even, otherwise replaces both magnitudes by their rounded integer roots
when both pass the integrality test and fails with `NonIntegerRoot`
otherwise. -/
def NthRoot (f : Fraction) (degree : Nat) : Except RootError Fraction :=
  if f.isNegative && (degree % 2 == 0) then Except.error RootError.EvenRootOfNegative
  else if IsNthRootInt f.numerator degree && IsNthRootInt f.denominator degree then
    Except.ok
      { numerator := IntNthRoot f.numerator degree
        denominator := IntNthRoot f.denominator degree
        isNegative := f.isNegative }
  else Except.error RootError.NonIntegerRoot

/-- The Fractions reachable from a successful construction via `New`,
closed under the operations named by the spec's invariant claim:
`Simplify`, `Multiply`, `Add`, `Subtract`, `Divide` and `Pow`. -/
inductive Reachable : Fraction → Prop where
  | new (n d : Int) (f : Fraction) (h : New n d = Except.ok f) : Reachable f
  | simplify (f : Fraction) (hf : Reachable f) : Reachable (Simplify f)
  | multiply (f g : Fraction) (hf : Reachable f) (hg : Reachable g) :
      Reachable (Multiply f g)
  | add (f g : Fraction) (hf : Reachable f) (hg : Reachable g) : Reachable (Add f g)
  | subtract (f g : Fraction) (hf : Reachable f) (hg : Reachable g) :
      Reachable (Subtract f g)
  | divide (f g : Fraction) (hf : Reachable f) (hg : Reachable g) : Reachable (Divide f g)
  | pow (f : Fraction) (e : Nat) (hf : Reachable f) : Reachable (Pow f e)

/-- As `Reachable`, except that `Divide` is only applied to divisors
with nonzero numerator, i.e. division by a zero-valued Fraction is
excluded. -/
inductive ReachableChecked : Fraction → Prop where
  | new (n d : Int) (f : Fraction) (h : New n d = Except.ok f) : ReachableChecked f
  | simplify (f : Fraction) (hf : ReachableChecked f) : ReachableChecked (Simplify f)
  | multiply (f g : Fraction) (hf : ReachableChecked f) (hg : ReachableChecked g) :
      ReachableChecked (Multiply f g)
  | add (f g : Fraction) (hf : ReachableChecked f) (hg : ReachableChecked g) :
      ReachableChecked (Add f g)
  | subtract (f g : Fraction) (hf : ReachableChecked f) (hg : ReachableChecked g) :
      ReachableChecked (Subtract f g)
  | divide (f g : Fraction) (hf : ReachableChecked f) (hg : ReachableChecked g)
      (hnz : g.numerator ≠ 0) : ReachableChecked (Divide f g)
  | pow (f : Fraction) (e : Nat) (hf : ReachableChecked f) : ReachableChecked (Pow f e)

end fraction

namespace vector

/-- Embeds the Go `vector.Vector[T]` slice type, at the element type
`int` (`Int`); the generic parameter is not needed by the claims. -/
abbrev Vec := List Int

/-- One `v[index] op= other[index-offset]` step of the if/else-if chain
in the private Go method `operation`.  An unrecognised operation string
leaves the element unchanged, as in the source.  Go `/` is truncated
division (`Int.tdiv`). -/
def opApply (operation : String) (x y : Int) : Int :=
  if operation = "add" then x + y
  else if operation = "subtract" then x - y
  else if operation = "multiply" then x * y
  else if operation = "divide" then x.tdiv y
  else x

/-- The `for index < len(v)` loop of the private Go method `operation`,
breaking when `index-offset` runs past `other`; slice writes are
modelled with `List.set`. -/
def operationLoop (v other : Vec) (offset index : Nat) (operation : String) : Vec :=
  if index < v.length then
    if index - offset < other.length then
      operationLoop
        (v.set index (opApply operation (v.getD index 0) (other.getD (index - offset) 0)))
        other offset (index + 1) operation
    else v
  else v
termination_by v.length - index
decreasing_by simp_all [List.length_set]; omega

/-- Embeds the private Go method `operation`: the guarded loop runs only
when `0 <= offset < len(v)`; the updated receiver slice is returned. -/
def operation (v other : Vec) (offset : Int) (op : String) : Vec :=
  if offset < (v.length : Int) ∧ 0 ≤ offset then
    operationLoop v other offset.toNat offset.toNat op
  else v

/-- Embeds Go `vector.Vector.Add`. -/
def Add (v other : Vec) (offset : Int) : Vec :=
  operation v other offset "add"

/-- Embeds Go `vector.Vector.Scale`: every element of the receiver is
multiplied by `factor` in place; the returned list is the final contents
of the receiver's backing array. -/
def Scale (v : Vec) (factor : Int) : Vec :=
  v.map (fun x => x * factor)

/-- Embeds Go `vector.Vector.Subtract`,
`return v.Add(other.Scale(T(-1)), offset)`.  Since `Scale` mutates
`other`'s backing array in place, the embedding passes the state
explicitly: the result is the pair (updated receiver, final contents of
the caller's `other` slice). -/
def Subtract (v other : Vec) (offset : Int) : Vec × Vec :=
  let otherScaled := Scale other (-1)
  (Add v otherScaled offset, otherScaled)

/-- Embeds Go `vector.Vector.Sum`: `var sum T = 0` followed by
`sum += v[i]` over all indices. -/
def Sum (v : Vec) : Int :=
  v.foldl (fun sum x => sum + x) 0

/-- Embeds Go `vector.Vector.Product`: `var product T = 0` followed by
`product *= v[i]` over all indices, exactly as in the source. -/
def Product (v : Vec) : Int :=
  v.foldl (fun product x => product * x) 0

end vector

namespace wbmath

theorem natAbs_tmod (a b : Int) : (a.tmod b).natAbs = a.natAbs % b.natAbs := by
  cases a <;> cases b <;>
    simp only [Int.tmod, Int.natAbs_ofNat, Int.natAbs_neg] <;>
    norm_cast

theorem gcdLoop_unfold (a b : Int) :
    gcdLoop a b = if b = 0 then a else gcdLoop b (a.tmod b) := by
  rw [gcdLoop]
  split <;> rfl

theorem powIntLoop_unfold (base : Int) (exponent : Nat) (result : Int) :
    powIntLoop base exponent result =
      if exponent = 0 then result
      else
        powIntLoop (if exponent / 2 ≠ 0 then base * base else base) (exponent / 2)
          (if exponent % 2 ≠ 0 then result * base else result) := by
  rw [powIntLoop]
  split <;> rfl

/-- Whenever both arguments are natural numbers, the Euclidean loop computes
`Nat.gcd`; in particular its result is non-negative. -/
theorem gcdLoop_coe (n m : Nat) :
    gcdLoop (m : Int) (n : Int) = (Nat.gcd m n : Int) := by
  induction n using Nat.strong_induction_on generalizing m with
  | _ n ih =>
    rw [gcdLoop_unfold]
    rcases Nat.eq_zero_or_pos n with hn | hn
    · subst hn; simp [Nat.gcd_comm]
    · have hne : (n : Int) ≠ 0 := by exact_mod_cast Nat.pos_iff_ne_zero.mp hn
      have htmod : (m : Int).tmod (n : Int) = ((m % n : Nat) : Int) :=
        (Int.ofNat_tmod m n).symm
      rw [if_neg hne, htmod, ih (m % n) (Nat.mod_lt _ hn)]
      rw [Nat.gcd_comm n (m % n), ← Nat.gcd_rec n m, Nat.gcd_comm n m]

/-- On natural-number arguments Go `wbmath.Gcd` is `Nat.gcd`. -/
theorem Gcd_coe (m n : Nat) : Gcd (m : Int) (n : Int) = (Nat.gcd m n : Int) := by
  unfold Gcd
  rcases Nat.eq_zero_or_pos m with hm | hm
  · subst hm; simp
  rcases Nat.eq_zero_or_pos n with hn | hn
  · subst hn; simp
  have hm' : (m : Int) ≠ 0 := by exact_mod_cast Nat.pos_iff_ne_zero.mp hm
  have hn' : (n : Int) ≠ 0 := by exact_mod_cast Nat.pos_iff_ne_zero.mp hn
  rw [if_neg (by push_neg; exact ⟨hm', hn'⟩), gcdLoop_coe]

/-- The square-and-multiply loop computes `result * base ^ exponent`. -/
theorem powIntLoop_eq (exponent : Nat) (base result : Int) :
    powIntLoop base exponent result = result * base ^ exponent := by
  induction exponent using Nat.strong_induction_on generalizing base result with
  | _ e ih =>
    rw [powIntLoop_unfold]
    rcases Nat.eq_zero_or_pos e with he | he
    · subst he; simp
    have hlt : e / 2 < e := Nat.div_lt_self he one_lt_two
    rcases Nat.eq_zero_or_pos (e / 2) with h2 | h2
    · have he1 : e = 1 := by omega
      subst he1
      norm_num
      rw [powIntLoop_unfold]
      norm_num [pow_one]
    · have hrec := ih (e / 2) hlt (base * base)
      have hpow : (base * base) ^ (e / 2) = base ^ (2 * (e / 2)) := by
        rw [← sq, ← pow_mul]
      have hne : ¬ e = 0 := by omega
      have h2ne : (e / 2 : Nat) ≠ 0 := by omega
      rcases Nat.mod_two_eq_zero_or_one e with hm | hm
      · have h20 : ¬ (e % 2 ≠ 0) := by omega
        rw [if_neg hne, if_neg h20, if_pos h2ne, hrec, hpow]
        have h2e : 2 * (e / 2) = e := by omega
        rw [h2e]
      · have h21 : e % 2 ≠ 0 := by omega
        rw [if_neg hne, if_pos h21, if_pos h2ne, hrec, hpow, mul_assoc]
        have hb : base * base ^ (2 * (e / 2)) = base ^ e := by
          rw [← pow_succ']
          congr 1
          omega
        rw [hb]

/-- Go `wbmath.PowInt` computes the mathematical power. -/
theorem PowInt_eq (base : Int) (exponent : Nat) :
    PowInt base exponent = base ^ exponent := by
  simp [PowInt, powIntLoop_eq]

theorem Abs_eq_abs (a : Int) : Abs a = |a| := by
  unfold Abs
  rcases lt_or_le a 0 with h | h
  · rw [if_pos h, abs_of_neg h]
  · rw [if_neg (not_lt.mpr h), abs_of_nonneg h]

theorem Abs_nonneg (a : Int) : 0 ≤ Abs a := by
  rw [Abs_eq_abs]; exact abs_nonneg a

theorem Abs_eq_zero (a : Int) : Abs a = 0 ↔ a = 0 := by
  rw [Abs_eq_abs]; exact abs_eq_zero

end wbmath

namespace fraction

theorem tdiv_coe (m n : Nat) : (m : Int).tdiv (n : Int) = ((m / n : Nat) : Int) := rfl

/-- `Simplify` on non-negative fields, expressed through `Nat.gcd`. -/
theorem Simplify_coe (n d : Nat) (s : Bool) :
    Simplify ⟨(n : Int), (d : Int), s⟩ =
      if Nat.gcd n d = 0 then (⟨(n : Int), (d : Int), s⟩ : Fraction)
      else ⟨((n / Nat.gcd n d : Nat) : Int), ((d / Nat.gcd n d : Nat) : Int), s⟩ := by
  unfold Simplify
  simp only [wbmath.Gcd_coe n d]
  rcases eq_or_ne (Nat.gcd n d) 0 with h | h
  · simp [h]
  · have h' : ((Nat.gcd n d : Nat) : Int) ≠ 0 := by exact_mod_cast h
    simp [h, h', tdiv_coe]

/-- Idempotence of `Simplify` on fractions with non-negative fields. -/
theorem Simplify_idem (f : Fraction) (hn : 0 ≤ f.numerator) (hd : 0 ≤ f.denominator) :
    Simplify (Simplify f) = Simplify f := by
  obtain ⟨fn, fd, fs⟩ := f
  simp only at hn hd
  obtain ⟨N, rfl⟩ : ∃ N : Nat, fn = (N : Int) := ⟨fn.toNat, (Int.toNat_of_nonneg hn).symm⟩
  obtain ⟨D, rfl⟩ : ∃ D : Nat, fd = (D : Int) := ⟨fd.toNat, (Int.toNat_of_nonneg hd).symm⟩
  rcases eq_or_ne (Nat.gcd N D) 0 with hG | hG
  · rw [Simplify_coe, if_pos hG, Simplify_coe, if_pos hG]
  · have hGpos : 0 < Nat.gcd N D := Nat.pos_of_ne_zero hG
    have hcop : Nat.gcd (N / Nat.gcd N D) (D / Nat.gcd N D) = 1 :=
      Nat.coprime_div_gcd_div_gcd hGpos
    rw [Simplify_coe, if_neg hG, Simplify_coe, hcop]
    norm_num

/-- `Simplify` preserves non-negativity, positivity of the denominator
and the sign flag. -/
theorem Simplify_fields (f : Fraction) (hn : 0 ≤ f.numerator) (hd : 0 < f.denominator) :
    0 ≤ (Simplify f).numerator ∧ 0 < (Simplify f).denominator ∧
      (Simplify f).isNegative = f.isNegative := by
  obtain ⟨fn, fd, fs⟩ := f
  simp only at hn hd ⊢
  obtain ⟨N, rfl⟩ : ∃ N : Nat, fn = (N : Int) := ⟨fn.toNat, (Int.toNat_of_nonneg hn).symm⟩
  obtain ⟨D, rfl⟩ : ∃ D : Nat, fd = (D : Int) := ⟨fd.toNat, (Int.toNat_of_nonneg hd.le).symm⟩
  have hDpos : 0 < D := by exact_mod_cast hd
  have hGpos : 0 < Nat.gcd N D := Nat.gcd_pos_of_pos_right N hDpos
  rw [Simplify_coe, if_neg (Nat.pos_iff_ne_zero.mp hGpos)]
  refine ⟨?_, ?_, rfl⟩
  · show (0 : Int) ≤ ((N / Nat.gcd N D : Nat) : Int)
    positivity
  · show (0 : Int) < ((D / Nat.gcd N D : Nat) : Int)
    have hpos : 0 < D / Nat.gcd N D :=
      Nat.div_pos (Nat.le_of_dvd hDpos (Nat.gcd_dvd_right N D)) hGpos
    exact_mod_cast hpos

end fraction

namespace fraction

theorem Simplify_isNegative (f : Fraction) :
    (Simplify f).isNegative = f.isNegative := by
  rcases eq_or_ne (wbmath.Gcd f.numerator f.denominator) 0 with h | h <;>
    simp [Simplify, h]

theorem Simplify_two_fourths : Simplify ⟨2, 4, false⟩ = ⟨1, 2, false⟩ := by
  rw [show (⟨2, 4, false⟩ : Fraction) = ⟨((2 : Nat) : Int), ((4 : Nat) : Int), false⟩ by
    norm_num]
  rw [Simplify_coe]
  norm_num

theorem StringGo_two_fourths : StringGo ⟨2, 4, false⟩ = "1/2" := by
  unfold StringGo
  rw [Simplify_two_fourths]
  norm_num
  rfl

/-- C8: `Simplify` is idempotent: for every Fraction (whose fields are,
per the data model, non-negative magnitudes), simplifying twice equals
simplifying once; moreover `Simplify` leaves the sign flag unchanged. -/
theorem c8_simplify_idempotent (f : Fraction)
    (hn : 0 ≤ f.numerator) (hd : 0 ≤ f.denominator) :
    Simplify (Simplify f) = Simplify f ∧ (Simplify f).isNegative = f.isNegative :=
  ⟨Simplify_idem f hn hd, Simplify_isNegative f⟩

theorem c8_simplify_idempotent_witness :
    Simplify (Simplify ⟨2, 4, false⟩) = Simplify ⟨2, 4, false⟩ ∧
      (Simplify ⟨2, 4, false⟩).isNegative = (⟨2, 4, false⟩ : Fraction).isNegative :=
  c8_simplify_idempotent ⟨2, 4, false⟩ (by norm_num) (by norm_num)

/-- C5 counterexample: the claim says formatting renders the stored
(unsimplified) fields, so that 2/4 formats as "2/4"; but on the validly
constructed Fraction 2/4 the canonical String method simplifies first
and renders "1/2". -/
theorem c5_formats_stored_counterexample :
    New 2 4 = Except.ok ⟨2, 4, false⟩ ∧
      StringGo ⟨2, 4, false⟩ = "1/2" ∧ StringGo ⟨2, 4, false⟩ ≠ "2/4" := by
  refine ⟨by rfl, StringGo_two_fourths, ?_⟩
  rw [StringGo_two_fourths]
  decide

/-- C5 (amended): canonical string formatting auto-simplifies: for every
validly constructed Fraction the output renders the simplified numerator
and denominator — formatting is invariant under a prior `Simplify` — and
the Fraction 2/4 formats as "1/2" even when `Simplify` is not called
first. -/
theorem c5_formatting_autosimplifies :
    (∀ f : Fraction, 0 ≤ f.numerator → 0 ≤ f.denominator →
      StringGo f = StringGo (Simplify f)) ∧ StringGo ⟨2, 4, false⟩ = "1/2" := by
  refine ⟨fun f hn hd => ?_, StringGo_two_fourths⟩
  simp only [StringGo, Simplify_idem f hn hd]

theorem c5_formatting_autosimplifies_witness :
    StringGo ⟨2, 4, false⟩ = StringGo (Simplify ⟨2, 4, false⟩) :=
  c5_formatting_autosimplifies.1 ⟨2, 4, false⟩ (by norm_num) (by norm_num)

end fraction

namespace fraction

/-- C2: for every pair of integers (n, d) with d ≠ 0, the Fraction
returned by `New n d` evaluates, via `Evaluate`, to the exact rational
quotient n/d (modelling the float64 division exactly over ℚ, so the
1e-9 floating comparison holds a fortiori); `Evaluate` itself returns
`-numerator/denominator` when the sign is negative and the numerator
nonzero, else `numerator/denominator`, as its definition records. -/
theorem c2_new_evaluate (n d : Int) (hd : d ≠ 0) (f : Fraction)
    (hf : New n d = Except.ok f) : Evaluate f = (n : ℚ) / (d : ℚ) := by
  have hf' : f = ⟨wbmath.Abs n, wbmath.Abs d, decide (n * d < 0)⟩ := by
    rw [New, if_neg hd] at hf
    exact (Except.ok.inj hf).symm
  subst hf'
  rcases lt_trichotomy n 0 with hn | rfl | hn
  · rcases hd.lt_or_lt with hdlt | hdgt
    · have hdec : decide (n * d < 0) = false :=
        decide_eq_false (not_lt.mpr (mul_pos_of_neg_of_neg hn hdlt).le)
      have habs1 : wbmath.Abs n = -n := by simp [wbmath.Abs, hn]
      have habs2 : wbmath.Abs d = -d := by simp [wbmath.Abs, hdlt]
      simp only [Evaluate, habs1, habs2, hdec]
      simp only [Bool.false_eq_true, false_and, if_false]
      push_cast
      rw [neg_div_neg_eq]
    · have hdec : decide (n * d < 0) = true :=
        decide_eq_true (mul_neg_of_neg_of_pos hn hdgt)
      have habs1 : wbmath.Abs n = -n := by simp [wbmath.Abs, hn]
      have habs2 : wbmath.Abs d = d := by simp [wbmath.Abs, not_lt.mpr hdgt.le]
      simp only [Evaluate, habs1, habs2, hdec]
      rw [if_pos ⟨trivial, by simpa using hn.ne⟩]
      push_cast
      rw [neg_div, neg_neg]
  · simp [Evaluate, wbmath.Abs]
  · rcases hd.lt_or_lt with hdlt | hdgt
    · have hdec : decide (n * d < 0) = true :=
        decide_eq_true (mul_neg_of_pos_of_neg hn hdlt)
      have habs1 : wbmath.Abs n = n := by simp [wbmath.Abs, not_lt.mpr hn.le]
      have habs2 : wbmath.Abs d = -d := by simp [wbmath.Abs, hdlt]
      simp only [Evaluate, habs1, habs2, hdec]
      rw [if_pos ⟨trivial, hn.ne.symm⟩]
      push_cast
      rw [div_neg, neg_neg]
    · have hdec : decide (n * d < 0) = false :=
        decide_eq_false (not_lt.mpr (mul_pos hn hdgt).le)
      have habs1 : wbmath.Abs n = n := by simp [wbmath.Abs, not_lt.mpr hn.le]
      have habs2 : wbmath.Abs d = d := by simp [wbmath.Abs, not_lt.mpr hdgt.le]
      simp only [Evaluate, habs1, habs2, hdec]
      simp only [Bool.false_eq_true, false_and, if_false]

theorem c2_new_evaluate_witness :
    Evaluate ⟨1, 2, false⟩ = ((1 : Int) : ℚ) / ((2 : Int) : ℚ) :=
  c2_new_evaluate 1 2 (by norm_num) ⟨1, 2, false⟩ (by rfl)

end fraction

namespace fraction

/-- C3: for every pair of validly constructed Fractions, `Add` returns the
Fraction whose numerator is the absolute value of the signed combined
numerator s*n1*d2 + o*n2*d1, whose denominator is d1*d2, and whose sign is
negative iff the combined numerator is negative; and (1/2) + (-3/4)
evaluates to -0.25. -/
theorem c3_add_formula :
    (∀ f other : Fraction, 0 < f.denominator → 0 < other.denominator →
      Add f other =
        { numerator := wbmath.Abs ((if f.isNegative then -1 else 1) * f.numerator *
              other.denominator +
            (if other.isNegative then -1 else 1) * other.numerator * f.denominator)
          denominator := f.denominator * other.denominator
          isNegative := decide ((if f.isNegative then -1 else 1) * f.numerator *
              other.denominator +
            (if other.isNegative then -1 else 1) * other.numerator * f.denominator < 0) }) ∧
    Evaluate (Add ⟨1, 2, false⟩ ⟨3, 4, true⟩) = -(1 / 4 : ℚ) := by
  constructor
  · intro f other hf ho
    have hD : 0 < f.denominator * other.denominator := mul_pos hf ho
    unfold Add
    simp only [Fraction.mk.injEq]
    refine ⟨trivial, trivial, ?_⟩
    rw [decide_eq_decide]
    constructor
    · intro h
      by_contra hc
      push_neg at hc
      exact absurd (mul_nonneg hc hD.le) (not_le.mpr h)
    · intro h
      exact mul_neg_of_neg_of_pos h hD
  · norm_num [Add, Evaluate, wbmath.Abs]

theorem c3_add_formula_witness :
    Add ⟨1, 2, false⟩ ⟨3, 4, true⟩ = ⟨2, 8, true⟩ :=
  c3_add_formula.1 ⟨1, 2, false⟩ ⟨3, 4, true⟩ (by norm_num) (by norm_num)

/-- C4 counterexample: at (n, d) = (0, -1) exactly one of the two inputs is
negative, yet `New` stores a positive sign (a zero numerator is always
stored positive), so the claimed biconditional fails. -/
theorem c4_sign_counterexample :
    ¬ (∀ (n d : Int) (f : Fraction), New n d = Except.ok f →
        (f.isNegative = true ↔ ((n < 0 ∧ ¬ d < 0) ∨ (¬ n < 0 ∧ d < 0)))) := by
  intro h
  have h0 := h 0 (-1) ⟨0, 1, false⟩ (by rfl)
  have h2 : ¬ ((0 : Int) < 0) := by norm_num
  have h3 : (-1 : Int) < 0 := by norm_num
  have h4 := h0.mpr (Or.inr ⟨h2, h3⟩)
  simp at h4

/-- C4 (amended): `New n d` returns the DivisionByZero error iff d = 0; on
success the stored magnitudes are |n| and |d| and the stored sign is
negative iff n and d are both nonzero with strictly opposite signs
(equivalently n*d < 0; in particular a zero numerator is stored with
positive sign). -/
theorem c4_new_contract (n d : Int) :
    (New n d = Except.error "error: integer divide by zero" ↔ d = 0) ∧
    (∀ f : Fraction, New n d = Except.ok f →
      f.numerator = |n| ∧ f.denominator = |d| ∧
        (f.isNegative = true ↔ ((n < 0 ∧ 0 < d) ∨ (0 < n ∧ d < 0)))) := by
  constructor
  · constructor
    · intro h
      by_contra hd
      rw [New, if_neg hd] at h
      exact Except.noConfusion h
    · intro h
      rw [New, if_pos h]
  · intro f hf
    have hd : d ≠ 0 := by
      intro h0
      rw [New, if_pos h0] at hf
      exact Except.noConfusion hf
    rw [New, if_neg hd] at hf
    obtain rfl := (Except.ok.inj hf).symm
    refine ⟨wbmath.Abs_eq_abs n, wbmath.Abs_eq_abs d, ?_⟩
    simp only [decide_eq_true_eq]
    rw [mul_neg_iff]
    tauto

theorem c4_new_contract_witness :
    (⟨3, 4, true⟩ : Fraction).numerator = |(-3 : Int)| ∧
      (⟨3, 4, true⟩ : Fraction).denominator = |(4 : Int)| ∧
      ((⟨3, 4, true⟩ : Fraction).isNegative = true ↔
        (((-3 : Int) < 0 ∧ (0 : Int) < 4) ∨ ((0 : Int) < -3 ∧ (4 : Int) < 0))) :=
  (c4_new_contract (-3) 4).2 ⟨3, 4, true⟩ rfl

/-- C1 counterexample: dividing the validly constructed 1/2 by the validly
constructed zero-valued Fraction 0/1 is a reachable operation sequence and
produces denominator 2*0 = 0, refuting the invariant as claimed (with
`Divide` included unrestricted). -/
theorem c1_invariant_counterexample :
    ¬ (∀ f : Fraction, Reachable f →
        f.denominator ≠ 0 ∧ 0 ≤ f.numerator ∧ 0 ≤ f.denominator) := by
  intro h
  have h1 : Reachable (Divide ⟨1, 2, false⟩ ⟨0, 1, false⟩) :=
    Reachable.divide ⟨1, 2, false⟩ ⟨0, 1, false⟩
      (Reachable.new 1 2 ⟨1, 2, false⟩ rfl) (Reachable.new 0 1 ⟨0, 1, false⟩ rfl)
  exact (h _ h1).1 rfl

/-- C1 (amended): every Fraction reachable from successful construction via
`New` and the operations `Simplify`, `Multiply`, `Add`, `Subtract`, `Pow`,
and `Divide` restricted to divisors with nonzero numerator, has a nonzero
denominator and non-negative numerator and denominator fields. -/
theorem c1_invariant (f : Fraction) (hf : ReachableChecked f) :
    f.denominator ≠ 0 ∧ 0 ≤ f.numerator ∧ 0 ≤ f.denominator := by
  have main : 0 ≤ f.numerator ∧ 0 < f.denominator := by
    induction hf with
    | new n d g hg =>
      have hd : d ≠ 0 := by
        intro h0
        rw [New, if_pos h0] at hg
        exact Except.noConfusion hg
      rw [New, if_neg hd] at hg
      obtain rfl := (Except.ok.inj hg).symm
      refine ⟨wbmath.Abs_nonneg n, ?_⟩
      rcases (wbmath.Abs_nonneg d).lt_or_eq with h | h
      · exact h
      · exact absurd ((wbmath.Abs_eq_zero d).mp h.symm) hd
    | simplify g hg ih =>
      exact ⟨(Simplify_fields g ih.1 ih.2).1, (Simplify_fields g ih.1 ih.2).2.1⟩
    | multiply g1 g2 h1 h2 ih1 ih2 =>
      exact ⟨mul_nonneg ih1.1 ih2.1, mul_pos ih1.2 ih2.2⟩
    | add g1 g2 h1 h2 ih1 ih2 =>
      exact ⟨wbmath.Abs_nonneg _, mul_pos ih1.2 ih2.2⟩
    | subtract g1 g2 h1 h2 ih1 ih2 =>
      exact ⟨wbmath.Abs_nonneg _, mul_pos ih1.2 ih2.2⟩
    | divide g1 g2 h1 h2 hnz ih1 ih2 =>
      exact ⟨mul_nonneg ih1.1 ih2.2.le, mul_pos ih1.2 (ih2.1.lt_of_ne (Ne.symm hnz))⟩
    | pow g e hg ih =>
      show 0 ≤ wbmath.PowInt g.numerator e ∧ 0 < wbmath.PowInt g.denominator e
      rw [wbmath.PowInt_eq, wbmath.PowInt_eq]
      exact ⟨pow_nonneg ih.1 e, pow_pos ih.2 e⟩
  exact ⟨main.2.ne', main.1, main.2.le⟩

theorem c1_invariant_witness :
    (⟨1, 2, false⟩ : Fraction).denominator ≠ 0 ∧
      0 ≤ (⟨1, 2, false⟩ : Fraction).numerator ∧
      0 ≤ (⟨1, 2, false⟩ : Fraction).denominator :=
  c1_invariant ⟨1, 2, false⟩ (ReachableChecked.new 1 2 ⟨1, 2, false⟩ rfl)

end fraction

namespace fraction

theorem IsNthRootInt_iff (V degree : Nat) :
    IsNthRootInt (V : Int) degree = true ↔ ∃ r : Nat, (r : Int) ^ degree = (V : Int) := by
  unfold IsNthRootInt
  rw [List.any_eq_true]
  constructor
  · rintro ⟨x, hmem, hx⟩
    exact ⟨x, of_decide_eq_true hx⟩
  · rintro ⟨r, hr⟩
    have hV : ((V : Int)).toNat = V := Int.toNat_natCast V
    have hrn : r ^ degree = V := by exact_mod_cast hr
    rcases Nat.eq_zero_or_pos degree with h0 | hpos
    · subst h0
      refine ⟨0, ?_, ?_⟩
      · rw [hV]; exact List.mem_range.mpr (by omega)
      · apply decide_eq_true
        rw [pow_zero] at hr ⊢
        exact hr
    · refine ⟨r, ?_, decide_eq_true hr⟩
      rw [hV]
      apply List.mem_range.mpr
      rcases Nat.eq_zero_or_pos r with hr0 | hrpos
      · omega
      · have : r ≤ r ^ degree := Nat.le_self_pow (by omega) r
        omega

theorem IntNthRoot_spec (V degree : Nat) (h : IsNthRootInt (V : Int) degree = true) :
    (IntNthRoot (V : Int) degree) ^ degree = (V : Int) ∧ 0 ≤ IntNthRoot (V : Int) degree := by
  unfold IsNthRootInt at h
  rw [List.any_eq_true] at h
  have hsome : ((List.range ((V : Int).toNat + 2)).find?
      (fun r : Nat => decide ((r : Int) ^ degree = (V : Int)))).isSome := by
    rw [List.find?_isSome]
    exact h
  obtain ⟨r, hfind⟩ := Option.isSome_iff_exists.mp hsome
  have hp := List.find?_some hfind
  have hp2 : (r : Int) ^ degree = (V : Int) := by simpa using hp
  have hval : IntNthRoot (V : Int) degree = (r : Int) := by
    unfold IntNthRoot
    rw [hfind]
  rw [hval]
  exact ⟨hp2, Int.natCast_nonneg r⟩

/-- C6: for every validly constructed Fraction with negative sign and even
degree, the spec-modelled `NthRoot` fails with `EvenRootOfNegative`;
otherwise it succeeds — replacing numerator and denominator by their
(rounded, here exact) integer roots, whose degree-th powers give back the
original magnitudes — exactly when both magnitudes pass the integer-root
test, and fails with `NonIntegerRoot` when they do not. -/
theorem c6_nthroot (f : Fraction) (degree : Nat)
    (hn : 0 ≤ f.numerator) (hd : 0 ≤ f.denominator) :
    (f.isNegative = true → degree % 2 = 0 →
        NthRoot f degree = Except.error RootError.EvenRootOfNegative) ∧
    (¬ (f.isNegative = true ∧ degree % 2 = 0) →
      ((∃ g, NthRoot f degree = Except.ok g ∧
          g.numerator ^ degree = f.numerator ∧ g.denominator ^ degree = f.denominator ∧
          0 ≤ g.numerator ∧ 0 ≤ g.denominator ∧ g.isNegative = f.isNegative) ↔
        ((∃ r : Nat, (r : Int) ^ degree = f.numerator) ∧
          (∃ r : Nat, (r : Int) ^ degree = f.denominator))) ∧
      (¬ ((∃ r : Nat, (r : Int) ^ degree = f.numerator) ∧
          (∃ r : Nat, (r : Int) ^ degree = f.denominator)) →
        NthRoot f degree = Except.error RootError.NonIntegerRoot)) := by
  constructor
  · intro hneg heven
    unfold NthRoot
    rw [if_pos]
    rw [hneg]
    simp [heven]
  · intro hnot
    have hcond : (f.isNegative && (degree % 2 == 0)) = false := by
      rcases Bool.eq_false_or_eq_true f.isNegative with h | h <;>
        simp [h] at hnot ⊢ <;> omega
    obtain ⟨N, hN⟩ : ∃ N : Nat, f.numerator = (N : Int) :=
      ⟨_, (Int.toNat_of_nonneg hn).symm⟩
    obtain ⟨D, hD⟩ : ∃ D : Nat, f.denominator = (D : Int) :=
      ⟨_, (Int.toNat_of_nonneg hd).symm⟩
    have hroot : NthRoot f degree =
        if IsNthRootInt f.numerator degree && IsNthRootInt f.denominator degree then
          Except.ok
            { numerator := IntNthRoot f.numerator degree
              denominator := IntNthRoot f.denominator degree
              isNegative := f.isNegative }
        else Except.error RootError.NonIntegerRoot := by
      unfold NthRoot
      rw [hcond]
      simp
    rcases htest : (IsNthRootInt f.numerator degree && IsNthRootInt f.denominator degree) with _ | _
    · -- both tests do not hold
      rw [htest] at hroot
      simp only [Bool.false_eq_true, if_false] at hroot
      have hnotex : ¬ ((∃ r : Nat, (r : Int) ^ degree = f.numerator) ∧
          (∃ r : Nat, (r : Int) ^ degree = f.denominator)) := by
        rintro ⟨hex1, hex2⟩
        have h1 : IsNthRootInt f.numerator degree = true := by
          rw [hN]; exact (IsNthRootInt_iff N degree).mpr (by rw [← hN]; exact hex1)
        have h2 : IsNthRootInt f.denominator degree = true := by
          rw [hD]; exact (IsNthRootInt_iff D degree).mpr (by rw [← hD]; exact hex2)
        rw [h1, h2] at htest
        simp at htest
      refine ⟨?_, fun _ => hroot⟩
      constructor
      · rintro ⟨g, hg, _⟩
        rw [hroot] at hg
        exact Except.noConfusion hg
      · intro hex
        exact absurd hex hnotex
    · -- both tests hold
      rw [htest] at hroot
      simp only [if_true] at hroot
      have hand := htest
      simp only [Bool.and_eq_true] at hand
      have h1 := hand.1
      have h2 := hand.2
      rw [hN] at h1
      rw [hD] at h2
      have hs1 := IntNthRoot_spec N degree h1
      have hs2 := IntNthRoot_spec D degree h2
      refine ⟨?_, ?_⟩
      · constructor
        · intro _
          exact ⟨(IsNthRootInt_iff N degree).mp h1 |>.imp (fun r hr => by rw [hN]; exact hr),
                 (IsNthRootInt_iff D degree).mp h2 |>.imp (fun r hr => by rw [hD]; exact hr)⟩
        · intro _
          refine ⟨_, hroot, ?_, ?_, ?_, ?_, rfl⟩
          · show IntNthRoot f.numerator degree ^ degree = f.numerator
            rw [hN]; exact hs1.1
          · show IntNthRoot f.denominator degree ^ degree = f.denominator
            rw [hD]; exact hs2.1
          · show 0 ≤ IntNthRoot f.numerator degree
            rw [hN]; exact hs1.2
          · show 0 ≤ IntNthRoot f.denominator degree
            rw [hD]; exact hs2.2
      · intro hnex
        exfalso
        apply hnex
        exact ⟨(IsNthRootInt_iff N degree).mp h1 |>.imp (fun r hr => by rw [hN]; exact hr),
               (IsNthRootInt_iff D degree).mp h2 |>.imp (fun r hr => by rw [hD]; exact hr)⟩

theorem c6_nthroot_witness :
    NthRoot ⟨1, 4, true⟩ 2 = Except.error RootError.EvenRootOfNegative :=
  (c6_nthroot ⟨1, 4, true⟩ 2 (by norm_num) (by norm_num)).1 rfl rfl

end fraction

namespace fraction

/-- C7: the float branch of `NewFromNumber` at input 0.125 (minimal decimal
text "0.125"): the code counts three fractional digits and builds the
denominator 10^3, but the numerator is the hardcoded literal 3, so the
result is 3/1000 rather than the claimed 125/1000; the produced value
differs from 0.125 by far more than the 1e-9 tolerance the package's own
test applies, exhibiting the code bug. -/
theorem c7_newfromnumber_bug :
    NewFromNumberFloat ['0', '.', '1', '2', '5'] = ⟨3, 1000, false⟩ ∧
    Evaluate ⟨3, 1000, false⟩ = (3 : ℚ) / 1000 ∧
    ¬ |Evaluate ⟨3, 1000, false⟩ - (125 : ℚ) / 1000| ≤ 1 / 10 ^ 9 := by
  refine ⟨?_, ?_, ?_⟩
  · show (⟨3, wbmath.PowInt 10 3, false⟩ : Fraction) = ⟨3, 1000, false⟩
    rw [wbmath.PowInt_eq]
    norm_num
  · norm_num [Evaluate]
  · norm_num [Evaluate]
    rw [abs_of_nonneg (by norm_num : (0 : ℚ) ≤ 61 / 500)]
    norm_num

end fraction

namespace vector

/-- C9 counterexample: for the non-empty vector [0], `Product` returns 0,
which IS the actual product of its elements, so the sub-claim that the
method never returns the actual product of a non-empty vector fails. -/
theorem c9_product_counterexample :
    ¬ (∀ v : Vec, v ≠ [] → Product v ≠ v.prod) := by
  intro h
  exact h [0] (by simp) (by rfl)

/-- C9 (amended): `Product` returns 0 for every Vector regardless of the
elements, because the accumulator is initialised to zero and then only
multiplied; consequently it differs from the actual product of a vector's
elements whenever that product is nonzero. -/
theorem c9_product_zero :
    (∀ v : Vec, Product v = 0) ∧
    (∀ v : Vec, v.prod ≠ 0 → Product v ≠ v.prod) := by
  have hz : ∀ v : Vec, Product v = 0 := by
    intro v
    unfold Product
    induction v with
    | nil => rfl
    | cons x xs ih => simpa using ih
  refine ⟨hz, fun v hv => ?_⟩
  rw [hz v]
  exact fun h => hv h.symm

theorem c9_product_zero_witness : Product [2] ≠ ([2] : List Int).prod :=
  c9_product_zero.2 [2] (by norm_num)

/-- C10: `Subtract` mutates its argument: for every pair of vectors and
every offset, it negates every element of `other` in place (via
`Scale(-1)`) before adding, so after the call the caller's `other` is left
elementwise scaled by -1 while the receiver holds the offset `Add` of the
negated argument. -/
theorem c10_subtract_mutates (v other : Vec) (offset : Int) :
    (Subtract v other offset).2 = other.map (fun x => -x) ∧
    (Subtract v other offset).1 = Add v (other.map (fun x => -x)) offset := by
  have hscale : Scale other (-1) = other.map (fun x => -x) := by
    simp only [Scale, mul_neg_one]
  exact ⟨hscale, by show Add v (Scale other (-1)) offset = _; rw [hscale]⟩

end vector
